import Mathlib

/-!
Shallow embedding of `src/main.cpp` (QueuingSystem): a bounded multi-group
priority store.  Each group owns an array-backed binary max-heap of requests
ordered by `type`; a shared `currentSize` counter (C++ `unsigned int`,
modelled as `Nat` with arithmetic modulo `2^32`) is bounded by `capacity`.
The generator and worker loop bodies, the heap maintenance routines
`heapifyUp` / `heapifyDown`, and `main`'s device-id assignment are embedded
below, together with the reachable-state invariants of the spec.

The heap child indices and the device ids are computed by the C++ in
`unsigned int`: `largeIdxU` / `heapifyDownU` and `deviceId` model that
modulo-`2^32` arithmetic faithfully.  The wrap-free idealizations
`largeIdx` / `heapifyDown` agree with them on vectors of at most
`2^31 - 1` elements (`heapifyDownU_eq`); on larger, still reachable heaps
the wrapped right-child index names a phantom child at the root and the
sift recursion cycles forever (`wrapVec_cycle`, `claimC1_pop_divergence`,
`claimC2_wrap_divergence`).
-/

namespace QueuingSystem

/-- Modulus `2^32` of the C++ `unsigned int` fields. -/
def U32 : Nat := 4294967296

/-- Unsigned 32-bit decrement, the effect of `currentSize--` on the
`unsigned int` field (line 100): wraps around to `2^32 - 1` at zero. -/
def decU32 (x : Nat) : Nat := if x = 0 then U32 - 1 else x - 1

/-- C++ `const int MIN_REQUEST_TYPE = 1;` (line 13). -/
def MIN_REQUEST_TYPE : Int := 1

/-- C++ `const int MAX_REQUEST_TYPE = 3;` (line 14). -/
def MAX_REQUEST_TYPE : Int := 3

/-- C++ `struct Request { int groupId; int type; }` (lines 56-67).
Its `<` and `>` compare the `type` fields only. -/
structure Request where
  groupId : Int
  type : Int
deriving Repr, DecidableEq

/-- C++ `struct Device { int groupId; int id; }` (lines 51-54).
`main` only ever stores non-negative values, so the fields are `Nat`. -/
structure Device where
  groupId : Nat
  id : Nat
deriving Repr, DecidableEq

/-- Unchecked vector read `requests[i]`, as C++ `operator[]`.  Out-of-range
reads are undefined behaviour in C++; the embedding returns a junk request,
and every lemma below is stated with the index in bounds. -/
def getR : List Request → Nat → Request
  | [], _ => ⟨0, 0⟩
  | a :: _, 0 => a
  | _ :: l, i + 1 => getR l i

/-- Unchecked vector write `requests[i] = x`.  Out of range it is a no-op
(undefined behaviour in C++, unreachable in the program). -/
def setR : List Request → Nat → Request → List Request
  | [], _, _ => []
  | _ :: l, 0, x => x :: l
  | a :: l, i + 1, x => a :: setR l i x

/-- C++ `std::swap(requests[i], requests[j])`. -/
def swapR (l : List Request) (i j : Nat) : List Request :=
  setR (setR l i (getR l j)) j (getR l i)

theorem length_setR (l : List Request) (i : Nat) (x : Request) :
    (setR l i x).length = l.length := by
  induction l generalizing i with
  | nil => rfl
  | cons a l ih => cases i with
    | zero => rfl
    | succ i => simpa [setR] using ih i

theorem getR_setR_eq (l : List Request) (i : Nat) (x : Request)
    (h : i < l.length) : getR (setR l i x) i = x := by
  induction l generalizing i with
  | nil => simp at h
  | cons a l ih => cases i with
    | zero => rfl
    | succ i =>
      simp only [List.length_cons, Nat.succ_lt_succ_iff] at h
      simpa [setR, getR] using ih i h

theorem getR_setR_ne (l : List Request) (i j : Nat) (x : Request)
    (h : i ≠ j) : getR (setR l i x) j = getR l j := by
  induction l generalizing i j with
  | nil => rfl
  | cons a l ih => cases i with
    | zero => cases j with
      | zero => exact absurd rfl h
      | succ j => rfl
    | succ i => cases j with
      | zero => rfl
      | succ j =>
        have h2 : i ≠ j := fun he => h (by simpa using congrArg Nat.succ he)
        simpa [setR, getR] using ih i j h2

theorem length_swapR (l : List Request) (i j : Nat) :
    (swapR l i j).length = l.length := by
  simp [swapR, length_setR]

theorem getR_swapR (l : List Request) (i j k : Nat)
    (hi : i < l.length) (hj : j < l.length) :
    getR (swapR l i j) k =
      if k = j then getR l i else if k = i then getR l j else getR l k := by
  unfold swapR
  by_cases hkj : k = j
  · subst hkj
    have : k < (setR l i (getR l k)).length := by rwa [length_setR]
    simp [getR_setR_eq _ _ _ this]
  · rw [getR_setR_ne _ _ _ _ (fun he => hkj he.symm)]
    by_cases hki : k = i
    · subst hki
      simp [hkj, getR_setR_eq _ _ _ hi]
    · rw [getR_setR_ne _ _ _ _ (fun he => hki he.symm)]
      simp [hkj, hki]

theorem getR_append_lt (l m : List Request) (j : Nat) (h : j < l.length) :
    getR (l ++ m) j = getR l j := by
  induction l generalizing j with
  | nil => simp at h
  | cons a l ih => cases j with
    | zero => rfl
    | succ j =>
      simp only [List.length_cons, Nat.succ_lt_succ_iff] at h
      simpa [getR] using ih j h

theorem getR_append_len (l : List Request) (r : Request) :
    getR (l ++ [r]) l.length = r := by
  induction l with
  | nil => rfl
  | cons a l ih => simpa [getR] using ih

theorem getR_take (l : List Request) (n j : Nat) (h : j < n) :
    getR (l.take n) j = getR l j := by
  induction l generalizing n j with
  | nil => simp [getR]
  | cons a l ih =>
    cases n with
    | zero => omega
    | succ n => cases j with
      | zero => rfl
      | succ j => simpa [getR] using ih n j (by omega)

theorem getR_replicate (n x : Nat) (r : Request) :
    getR (List.replicate n r) x = if x < n then r else ⟨0, 0⟩ := by
  induction n generalizing x with
  | zero => simp [getR]
  | succ n ih =>
    cases x with
    | zero => simp [List.replicate, getR]
    | succ x =>
      rw [List.replicate, getR]
      rw [ih x]
      by_cases h : x < n
      · rw [if_pos h, if_pos (by omega)]
      · rw [if_neg h, if_neg (by omega)]

theorem setR_setR (l : List Request) (i : Nat) (a b : Request) :
    setR (setR l i a) i b = setR l i b := by
  induction l generalizing i with
  | nil => rfl
  | cons c l ih => cases i with
    | zero => rfl
    | succ i => simpa [setR] using ih i

theorem setR_replicate_self (n i : Nat) (r : Request) :
    setR (List.replicate n r) i r = List.replicate n r := by
  induction n generalizing i with
  | zero => rfl
  | succ n ih =>
    cases i with
    | zero => rfl
    | succ i =>
      rw [List.replicate, setR, ih i]

theorem setR_append_lt (l m : List Request) (i : Nat) (x : Request)
    (h : i < l.length) : setR (l ++ m) i x = setR l i x ++ m := by
  induction l generalizing i with
  | nil => simp at h
  | cons a l ih => cases i with
    | zero => rfl
    | succ i =>
      simp only [List.length_cons, Nat.succ_lt_succ_iff] at h
      simpa [setR] using ih i h

theorem take_append_length (l m : List Request) :
    (l ++ m).take l.length = l := by
  induction l with
  | nil => rfl
  | cons a l ih => simp [ih]

/-- C++ `RequestQueue::heapifyUp` (lines 118-125): sift the element at
`index` up while its parent compares `<` (i.e. has a smaller `type`). -/
def heapifyUp (l : List Request) (index : Nat) : List Request :=
  if _h0 : index = 0 then l
  else if (getR l ((index - 1) / 2)).type < (getR l index).type then
    heapifyUp (swapR l ((index - 1) / 2) index) ((index - 1) / 2)
  else l
termination_by index
decreasing_by omega

/-- Idealized index selection of `RequestQueue::heapifyDown`
(lines 128-139): `large` starts at `index` and moves to the left then the
right child when that child is in bounds and strictly larger.  The child
indices are computed in unbounded `Nat`; the C++ computes them in
`unsigned int`, which `largeIdxU` below models faithfully.  Both agree for
`index < 2^31 - 1` (`largeIdxU_eq`), which covers every index the sift can
visit on vectors of at most `2^31 - 1` elements. -/
def largeIdx (l : List Request) (index : Nat) : Nat :=
  let left := 2 * index + 1
  let right := 2 * index + 2
  let mid := if left < l.length ∧ (getR l index).type < (getR l left).type
    then left else index
  if right < l.length ∧ (getR l mid).type < (getR l right).type
    then right else mid

theorem largeIdx_bounds (l : List Request) (index : Nat)
    (h : largeIdx l index ≠ index) :
    index < largeIdx l index ∧ largeIdx l index < l.length := by
  simp only [largeIdx] at h ⊢
  by_cases h1 : 2 * index + 1 < l.length ∧
      (getR l index).type < (getR l (2 * index + 1)).type
  · simp only [if_pos h1] at h ⊢
    by_cases h2 : 2 * index + 2 < l.length ∧
        (getR l (2 * index + 1)).type < (getR l (2 * index + 2)).type
    · simp only [if_pos h2]; omega
    · simp only [if_neg h2]; omega
  · simp only [if_neg h1] at h ⊢
    by_cases h2 : 2 * index + 2 < l.length ∧
        (getR l index).type < (getR l (2 * index + 2)).type
    · simp only [if_pos h2]; omega
    · simp only [if_neg h2] at h; omega

/-- Idealized `RequestQueue::heapifyDown` (lines 127-143): pick the
largest of `index` and its in-bounds children; if a child is strictly
larger, swap and recurse at that child.  Built on the unbounded-`Nat`
`largeIdx`; the faithful `unsigned int` version is `heapifyDownU` below,
which agrees with this one — and terminates — on the wrap-free domain
(`heapifyDownU_eq`) but cycles forever on some larger vectors
(`wrapVec_cycle`). -/
def heapifyDown (l : List Request) (index : Nat) : List Request :=
  if _heq : largeIdx l index = index then l
  else heapifyDown (swapR l index (largeIdx l index)) (largeIdx l index)
termination_by l.length - index
decreasing_by
  have := largeIdx_bounds l index _heq
  simp only [length_swapR]
  omega

/-- Faithful index selection of `RequestQueue::heapifyDown`: the child
indices `2*index + 1` and `2*index + 2` are computed in `unsigned int`
(lines 129-130), i.e. modulo `2^32`.  For `index ≥ 2^31 - 1` the right
child index wraps around and can name a live low slot (a phantom child). -/
def largeIdxU (l : List Request) (index : Nat) : Nat :=
  let left := (2 * index + 1) % U32
  let right := (2 * index + 2) % U32
  let mid := if left < l.length ∧ (getR l index).type < (getR l left).type
    then left else index
  if right < l.length ∧ (getR l mid).type < (getR l right).type
    then right else mid

/-- Faithful `RequestQueue::heapifyDown` with the `unsigned int` child
arithmetic, as a step-counting recursion: `none` means the routine does
not finish within `fuel` recursive calls — `none` for every fuel is
non-termination of the C++ recursion. -/
def heapifyDownU (fuel : Nat) (l : List Request) (index : Nat) :
    Option (List Request) :=
  match fuel with
  | 0 => none
  | fuel + 1 =>
    if largeIdxU l index = index then some l
    else heapifyDownU fuel (swapR l index (largeIdxU l index)) (largeIdxU l index)

/-- Termination of the faithful sift-down at a given start state: some
step budget suffices. -/
def SiftDownTerminates (l : List Request) (index : Nat) : Prop :=
  ∃ fuel, heapifyDownU fuel l index ≠ none

/-- Faithful heap-level effect of `RequestQueue::pop` (lines 101-103) with
the `unsigned int` sift arithmetic, fueled like `heapifyDownU`. -/
def heapPopU (fuel : Nat) (l : List Request) : Option (List Request) :=
  heapifyDownU fuel ((setR l 0 (getR l (l.length - 1))).take (l.length - 1)) 0

/-- The heap-level effect of `RequestQueue::push` on the touched vector:
`push_back` then `heapifyUp` at the new last index (lines 95-96). -/
def heapPush (l : List Request) (r : Request) : List Request :=
  heapifyUp (l ++ [r]) ((l ++ [r]).length - 1)

/-- The heap-level effect of `RequestQueue::pop` on the touched vector:
`[0] = back(); pop_back(); heapifyDown(_, 0)` (lines 101-103). -/
def heapPop (l : List Request) : List Request :=
  heapifyDown ((setR l 0 (getR l (l.length - 1))).take (l.length - 1)) 0

/-- Parent index of heap slot `j`: `(j - 1) / 2`. -/
def parentIdx (j : Nat) : Nat := (j - 1) / 2

/-- The max-heap invariant in parent form: every non-root element's `type`
is at most its parent's `type`. -/
def IsHeap (l : List Request) : Prop :=
  ∀ j, 0 < j → j < l.length → (getR l j).type ≤ (getR l (parentIdx j)).type

/-- The max-heap property in child form, as the spec states it: every
element dominates its in-bounds children. -/
def HeapProperty (l : List Request) : Prop :=
  ∀ i c, c < l.length → (c = 2 * i + 1 ∨ c = 2 * i + 2) →
    (getR l c).type ≤ (getR l i).type

theorem child_iff (i j : Nat) :
    (0 < j ∧ parentIdx j = i) ↔ (j = 2 * i + 1 ∨ j = 2 * i + 2) := by
  unfold parentIdx
  omega

theorem isHeap_iff_heapProperty (l : List Request) :
    IsHeap l ↔ HeapProperty l := by
  constructor
  · intro h i c hc hchild
    have hpc := (child_iff i c).mpr hchild
    have hle := h c hpc.1 hc
    rwa [hpc.2] at hle
  · intro h j hj hjl
    exact h (parentIdx j) j hjl ((child_iff (parentIdx j) j).mp ⟨hj, rfl⟩)

/-- Sift-up invariant: the parent edge into `k` may be violated, but the
edges into `k`'s children are dominated by `k`'s own parent. -/
def HeapExceptUp (l : List Request) (k : Nat) : Prop :=
  (∀ j, 0 < j → j < l.length → j ≠ k →
    (getR l j).type ≤ (getR l (parentIdx j)).type) ∧
  (0 < k → ∀ c, c < l.length → (c = 2 * k + 1 ∨ c = 2 * k + 2) →
    (getR l c).type ≤ (getR l (parentIdx k)).type)

/-- Sift-down invariant: the edges out of `k` into its children may be
violated, but `k`'s children are dominated by `k`'s own parent. -/
def HeapExceptDown (l : List Request) (k : Nat) : Prop :=
  (∀ j, 0 < j → j < l.length → parentIdx j ≠ k →
    (getR l j).type ≤ (getR l (parentIdx j)).type) ∧
  (0 < k → ∀ c, c < l.length → (c = 2 * k + 1 ∨ c = 2 * k + 2) →
    (getR l c).type ≤ (getR l (parentIdx k)).type)

theorem heapifyUp_length (l : List Request) (k : Nat) :
    (heapifyUp l k).length = l.length := by
  induction l, k using heapifyUp.induct with
  | case1 l => simp [heapifyUp]
  | case2 l index h0 hlt ih =>
    rw [heapifyUp]
    simp only [dif_neg h0, if_pos hlt]
    rw [ih, length_swapR]
  | case3 l index h0 hge =>
    rw [heapifyUp]
    simp only [dif_neg h0, if_neg hge]

theorem heapifyDown_length (l : List Request) (k : Nat) :
    (heapifyDown l k).length = l.length := by
  induction l, k using heapifyDown.induct with
  | case1 l index heq => rw [heapifyDown]; simp [heq]
  | case2 l index heq ih =>
    rw [heapifyDown]
    simp only [dif_neg heq]
    rw [ih, length_swapR]

theorem largeIdx_spec (l : List Request) (k : Nat)
    (hne : largeIdx l k ≠ k) :
    (largeIdx l k = 2 * k + 1 ∨ largeIdx l k = 2 * k + 2) ∧
    (getR l k).type < (getR l (largeIdx l k)).type ∧
    (∀ d, (d = 2 * k + 1 ∨ d = 2 * k + 2) → d < l.length →
      (getR l d).type ≤ (getR l (largeIdx l k)).type) := by
  simp only [largeIdx] at hne ⊢
  by_cases h1 : 2 * k + 1 < l.length ∧
      (getR l k).type < (getR l (2 * k + 1)).type
  · simp only [if_pos h1] at hne ⊢
    by_cases h2 : 2 * k + 2 < l.length ∧
        (getR l (2 * k + 1)).type < (getR l (2 * k + 2)).type
    · simp only [if_pos h2]
      refine ⟨by simp, by omega, ?_⟩
      rintro d (rfl | rfl) hd <;> omega
    · simp only [if_neg h2]
      refine ⟨by simp, h1.2, ?_⟩
      rintro d (rfl | rfl) hd
      · omega
      · have : ¬((getR l (2 * k + 1)).type < (getR l (2 * k + 2)).type) := by
          intro hc; exact h2 ⟨hd, hc⟩
        omega
  · simp only [if_neg h1] at hne ⊢
    by_cases h2 : 2 * k + 2 < l.length ∧
        (getR l k).type < (getR l (2 * k + 2)).type
    · simp only [if_pos h2] at hne ⊢
      refine ⟨by simp, h2.2, ?_⟩
      rintro d (rfl | rfl) hd
      · have : ¬((getR l k).type < (getR l (2 * k + 1)).type) := by
          intro hc; exact h1 ⟨by omega, hc⟩
        omega
      · omega
    · simp only [if_neg h2] at hne
      exact absurd rfl hne

theorem largeIdx_eq_spec (l : List Request) (k : Nat)
    (heq : largeIdx l k = k) :
    ∀ d, (d = 2 * k + 1 ∨ d = 2 * k + 2) → d < l.length →
      (getR l d).type ≤ (getR l k).type := by
  simp only [largeIdx] at heq
  by_cases h1 : 2 * k + 1 < l.length ∧
      (getR l k).type < (getR l (2 * k + 1)).type
  · simp only [if_pos h1] at heq
    split at heq <;> omega
  · simp only [if_neg h1] at heq
    by_cases h2 : 2 * k + 2 < l.length ∧
        (getR l k).type < (getR l (2 * k + 2)).type
    · simp only [if_pos h2] at heq; omega
    · rintro d (rfl | rfl) hd
      · have : ¬((getR l k).type < (getR l (2 * k + 1)).type) := by
          intro hc; exact h1 ⟨hd, hc⟩
        omega
      · have : ¬((getR l k).type < (getR l (2 * k + 2)).type) := by
          intro hc; exact h2 ⟨hd, hc⟩
        omega

theorem heapExceptUp_swap (l : List Request) (k : Nat)
    (hk0 : k ≠ 0) (hk : k < l.length)
    (hlt : (getR l ((k - 1) / 2)).type < (getR l k).type)
    (H : HeapExceptUp l k) :
    HeapExceptUp (swapR l ((k - 1) / 2) k) ((k - 1) / 2) := by
  have hpk : (k - 1) / 2 < k := by omega
  have hpl : (k - 1) / 2 < l.length := lt_trans hpk hk
  have hget : ∀ x, getR (swapR l ((k - 1) / 2) k) x =
      if x = k then getR l ((k - 1) / 2)
      else if x = (k - 1) / 2 then getR l k else getR l x :=
    fun x => getR_swapR l ((k - 1) / 2) k x hpl hk
  constructor
  · intro j hj hjl hjp
    rw [length_swapR] at hjl
    rw [hget j, hget (parentIdx j)]
    by_cases hjk : j = k
    · subst hjk
      have hpj : parentIdx j = (j - 1) / 2 := rfl
      rw [if_pos rfl, hpj, if_neg (by omega : ¬(j - 1) / 2 = j), if_pos rfl]
      exact le_of_lt hlt
    · rw [if_neg hjk, if_neg hjp]
      by_cases hpjk : parentIdx j = k
      · rw [if_pos hpjk]
        have hchild := (child_iff k j).mp ⟨hj, hpjk⟩
        exact H.2 (by omega) j hjl hchild
      · rw [if_neg hpjk]
        by_cases hpjp : parentIdx j = (k - 1) / 2
        · rw [if_pos hpjp]
          have h1 := H.1 j hj hjl hjk
          rw [hpjp] at h1
          exact le_trans h1 (le_of_lt hlt)
        · rw [if_neg hpjp]
          exact H.1 j hj hjl hjk
  · intro hp0 c hcl hcc
    rw [length_swapR] at hcl
    rw [hget c, hget (parentIdx ((k - 1) / 2))]
    have hppk : parentIdx ((k - 1) / 2) ≠ k := by unfold parentIdx; omega
    have hppp : parentIdx ((k - 1) / 2) ≠ (k - 1) / 2 := by
      unfold parentIdx; omega
    rw [if_neg hppk, if_neg hppp]
    have hple := H.1 ((k - 1) / 2) hp0 hpl (by omega)
    have hple2 : (getR l ((k - 1) / 2)).type ≤
        (getR l (parentIdx ((k - 1) / 2))).type := hple
    by_cases hck : c = k
    · rw [if_pos hck]
      exact hple2
    · rw [if_neg hck, if_neg (by omega : ¬c = (k - 1) / 2)]
      have hpc : parentIdx c = (k - 1) / 2 :=
        ((child_iff ((k - 1) / 2) c).mpr hcc).2
      have h1 := H.1 c (by omega) hcl hck
      rw [hpc] at h1
      exact le_trans h1 hple2

theorem heapifyUp_isHeap : ∀ (l : List Request) (k : Nat),
    k < l.length → HeapExceptUp l k → IsHeap (heapifyUp l k) := by
  intro l k
  induction l, k using heapifyUp.induct with
  | case1 l =>
    intro _ H
    rw [heapifyUp, dif_pos rfl]
    intro j hj hjl
    exact H.1 j hj hjl (by omega)
  | case2 l index h0 hlt ih =>
    intro hk H
    rw [heapifyUp]
    simp only [dif_neg h0, if_pos hlt]
    apply ih
    · rw [length_swapR]; omega
    · exact heapExceptUp_swap l index h0 hk hlt H
  | case3 l index h0 hge =>
    intro hk H
    rw [heapifyUp]
    simp only [dif_neg h0, if_neg hge]
    intro j hj hjl
    by_cases hjk : j = index
    · subst hjk
      exact le_of_not_lt hge
    · exact H.1 j hj hjl hjk

theorem heapExceptDown_swap (l : List Request) (k : Nat)
    (hne : largeIdx l k ≠ k) (H : HeapExceptDown l k) :
    HeapExceptDown (swapR l k (largeIdx l k)) (largeIdx l k) := by
  obtain ⟨hklt, hcl⟩ := largeIdx_bounds l k hne
  obtain ⟨hchild, hval, hsib⟩ := largeIdx_spec l k hne
  have hkl : k < l.length := lt_trans hklt hcl
  have hget : ∀ x, getR (swapR l k (largeIdx l k)) x =
      if x = largeIdx l k then getR l k
      else if x = k then getR l (largeIdx l k) else getR l x :=
    fun x => getR_swapR l k (largeIdx l k) x hkl hcl
  have hpc : parentIdx (largeIdx l k) = k :=
    ((child_iff k (largeIdx l k)).mpr hchild).2
  constructor
  · intro j hj hjl hjp
    rw [length_swapR] at hjl
    rw [hget j, hget (parentIdx j)]
    by_cases hjc : j = largeIdx l k
    · have hpj : parentIdx j = k := by rw [hjc, hpc]
      rw [if_pos hjc, hpj, if_neg (by omega : ¬k = largeIdx l k), if_pos rfl]
      exact le_of_lt hval
    · rw [if_neg hjc]
      by_cases hjk : j = k
      · rw [if_pos hjk]
        have hpjc : parentIdx j ≠ largeIdx l k := by unfold parentIdx; omega
        have hpjk2 : parentIdx j ≠ k := by unfold parentIdx; omega
        rw [if_neg hpjc, if_neg hpjk2]
        have h2 := H.2 (by omega) (largeIdx l k) hcl hchild
        rw [hjk]
        exact h2
      · rw [if_neg hjk]
        by_cases hpjk : parentIdx j = k
        · rw [if_neg (by omega : ¬parentIdx j = largeIdx l k), if_pos hpjk]
          have hchj := (child_iff k j).mp ⟨hj, hpjk⟩
          exact le_trans (hsib j hchj hjl) (le_refl _)
        · rw [if_neg hjp, if_neg hpjk]
          exact H.1 j hj hjl hpjk
  · intro hc0 d hdl hdd
    rw [length_swapR] at hdl
    rw [hget d, hget (parentIdx (largeIdx l k))]
    rw [hpc]
    have hdgt : largeIdx l k < d := by omega
    rw [if_neg (by omega : ¬d = largeIdx l k), if_neg (by omega : ¬d = k),
      if_neg (by omega : ¬k = largeIdx l k), if_pos rfl]
    have hpd : parentIdx d = largeIdx l k :=
      ((child_iff (largeIdx l k) d).mpr hdd).2
    have h1 := H.1 d (by omega) hdl (by omega)
    rw [hpd] at h1
    exact h1

theorem heapifyDown_isHeap : ∀ (l : List Request) (k : Nat),
    HeapExceptDown l k → IsHeap (heapifyDown l k) := by
  intro l k
  induction l, k using heapifyDown.induct with
  | case1 l index heq =>
    intro H
    rw [heapifyDown, dif_pos heq]
    intro j hj hjl
    by_cases hpj : parentIdx j = index
    · have hchj := (child_iff index j).mp ⟨hj, hpj⟩
      rw [hpj]
      exact largeIdx_eq_spec l index heq j hchj hjl
    · exact H.1 j hj hjl hpj
  | case2 l index hne ih =>
    intro H
    rw [heapifyDown]
    simp only [dif_neg hne]
    exact ih (heapExceptDown_swap l index hne H)

theorem heapExceptUp_append (l : List Request) (r : Request)
    (h : IsHeap l) : HeapExceptUp (l ++ [r]) l.length := by
  constructor
  · intro j hj hjl hjk
    have hjl2 : j < l.length := by
      simp only [List.length_append, List.length_cons, List.length_nil] at hjl
      omega
    have hpj : parentIdx j < l.length := by
      have : parentIdx j < j := by unfold parentIdx; omega
      omega
    rw [getR_append_lt _ _ _ hjl2, getR_append_lt _ _ _ hpj]
    exact h j hj hjl2
  · intro hk c hcl hcc
    exfalso
    simp only [List.length_append, List.length_cons, List.length_nil] at hcl
    omega

theorem isHeap_heapPush (l : List Request) (r : Request)
    (h : IsHeap l) : IsHeap (heapPush l r) := by
  unfold heapPush
  have hlen : (l ++ [r]).length - 1 = l.length := by simp
  rw [hlen]
  exact heapifyUp_isHeap (l ++ [r]) l.length (by simp) (heapExceptUp_append l r h)

theorem heapExceptDown_popBody (l : List Request) (h : IsHeap l) :
    HeapExceptDown ((setR l 0 (getR l (l.length - 1))).take (l.length - 1)) 0 := by
  constructor
  · intro j hj hjl hpj
    have hlen : ((setR l 0 (getR l (l.length - 1))).take (l.length - 1)).length
        = min (l.length - 1) l.length := by
      rw [List.length_take, length_setR]
    rw [hlen] at hjl
    have hjl2 : j < l.length - 1 := by omega
    have hpjlt : parentIdx j < j := by unfold parentIdx; omega
    rw [getR_take _ _ _ hjl2, getR_take _ _ _ (by omega : parentIdx j < l.length - 1)]
    rw [getR_setR_ne _ _ _ _ (by omega : (0 : Nat) ≠ j),
      getR_setR_ne _ _ _ _ (fun he => hpj he.symm)]
    exact h j hj (by omega)
  · intro h0
    exact absurd h0 (lt_irrefl 0)

theorem isHeap_heapPop (l : List Request) (h : IsHeap l) :
    IsHeap (heapPop l) :=
  heapifyDown_isHeap _ 0 (heapExceptDown_popBody l h)

theorem heapPush_length (l : List Request) (r : Request) :
    (heapPush l r).length = l.length + 1 := by
  unfold heapPush
  rw [heapifyUp_length]
  simp

theorem heapPop_length (l : List Request) :
    (heapPop l).length = l.length - 1 := by
  unfold heapPop
  rw [heapifyDown_length, List.length_take, length_setR]
  omega

theorem isHeap_root_max (l : List Request) (h : IsHeap l) :
    ∀ j, j < l.length → (getR l j).type ≤ (getR l 0).type := by
  intro j
  induction j using Nat.strong_induction_on with
  | _ j ih =>
    intro hjl
    by_cases hj0 : j = 0
    · rw [hj0]
    · have h1 := h j (by omega) hjl
      have hp : parentIdx j < j := by unfold parentIdx; omega
      have h2 := ih (parentIdx j) hp (lt_trans hp hjl)
      exact le_trans h1 h2

/-- C++ `RequestQueue` (lines 69-144).  `capacity` and `currentSize` are
`unsigned int`; both are kept as `Nat` values below `2^32`, with the
increment and decrement of `currentSize` taken modulo `2^32`. -/
structure RequestQueue where
  capacity : Nat
  currentSize : Nat
  allRequests : List (List Request)
deriving Repr, DecidableEq

namespace RequestQueue

/-- The constructor `RequestQueue(capacity, numOfGroups)` (lines 71-75):
`currentSize = 0` and one empty vector per group. -/
def init (capacity numOfGroups : Nat) : RequestQueue :=
  ⟨capacity, 0, List.replicate numOfGroups []⟩

/-- Read of `allRequests[groupId]`, the per-group heap vector. -/
def group (q : RequestQueue) (groupId : Nat) : List Request :=
  q.allRequests.getD groupId []

/-- C++ `RequestQueue::size` (lines 77-79). -/
def size (q : RequestQueue) : Nat := q.currentSize

/-- C++ `RequestQueue::top` (lines 81-83): `allRequests[groupId][0]`. -/
def top (q : RequestQueue) (groupId : Nat) : Request := getR (q.group groupId) 0

/-- C++ `RequestQueue::isFull` (lines 85-87). -/
def isFull (q : RequestQueue) : Bool := q.currentSize == q.capacity

/-- C++ `RequestQueue::isEmpty` (lines 89-91). -/
def isEmpty (q : RequestQueue) (groupId : Nat) : Bool := (q.group groupId).isEmpty

/-- C++ `RequestQueue::push` (lines 93-97): increment `currentSize` (mod `2^32`),
then `push_back` + `heapifyUp` on the group indexed by `request.groupId`. -/
def push (q : RequestQueue) (request : Request) : RequestQueue :=
  { q with
    currentSize := (q.currentSize + 1) % U32
    allRequests := q.allRequests.set request.groupId.toNat
      (heapPush (q.group request.groupId.toNat) request) }

/-- C++ `RequestQueue::pop` (lines 99-104): decrement `currentSize` (mod `2^32`),
overwrite the root with the last element, `pop_back`, `heapifyDown` from 0. -/
def pop (q : RequestQueue) (groupId : Nat) : RequestQueue :=
  { q with
    currentSize := decU32 q.currentSize
    allRequests := q.allRequests.set groupId (heapPop (q.group groupId)) }

end RequestQueue

/-- Sum of the sizes of all per-group heap vectors. -/
def sizesSum (q : RequestQueue) : Nat := (q.allRequests.map List.length).sum

theorem sum_map_set (l : List (List Request)) (f : List Request → Nat)
    (i : Nat) (x : List Request) (h : i < l.length) :
    ((l.set i x).map f).sum + f (l.getD i []) = (l.map f).sum + f x := by
  induction l generalizing i with
  | nil => simp at h
  | cons a l ih =>
    cases i with
    | zero =>
      simp only [List.set_cons_zero, List.map_cons, List.sum_cons,
        List.getD_cons_zero]
      omega
    | succ i =>
      simp only [List.set_cons_succ, List.map_cons, List.sum_cons,
        List.getD_cons_succ]
      have := ih i (by simpa using h)
      omega

theorem sum_map_ge_elem (l : List (List Request)) (f : List Request → Nat)
    (i : Nat) (h : i < l.length) : f (l.getD i []) ≤ (l.map f).sum := by
  induction l generalizing i with
  | nil => simp at h
  | cons a l ih =>
    cases i with
    | zero => simp only [List.getD_cons_zero, List.map_cons, List.sum_cons]; omega
    | succ i =>
      simp only [List.getD_cons_succ, List.map_cons, List.sum_cons]
      have := ih i (by simpa using h)
      omega

theorem getD_set_eq (l : List (List Request)) (i : Nat) (x : List Request)
    (h : i < l.length) : (l.set i x).getD i [] = x := by
  simp [List.getD_eq_getElem?_getD, List.getElem?_set, h]

theorem getD_set_ne (l : List (List Request)) (i j : Nat) (x : List Request)
    (h : i ≠ j) : (l.set i x).getD j [] = l.getD j [] := by
  simp [List.getD_eq_getElem?_getD, List.getElem?_set, h]

theorem getD_replicate (n i : Nat) :
    (List.replicate n ([] : List Request)).getD i [] = [] := by
  rcases Nat.lt_or_ge i n with h | h
  · simp [List.getD_eq_getElem?_getD, List.getElem?_replicate, h]
  · simp [List.getD_eq_getElem?_getD, List.getElem?_eq_none
      (by simp [List.length_replicate]; omega :
        (List.replicate n ([] : List Request)).length ≤ i)]

theorem group_init (c n gid : Nat) : (RequestQueue.init c n).group gid = [] :=
  getD_replicate n gid

theorem group_push_eq (q : RequestQueue) (r : Request)
    (h : r.groupId.toNat < q.allRequests.length) :
    (q.push r).group r.groupId.toNat = heapPush (q.group r.groupId.toNat) r :=
  getD_set_eq _ _ _ h

theorem group_push_ne (q : RequestQueue) (r : Request) (j : Nat)
    (h : j ≠ r.groupId.toNat) : (q.push r).group j = q.group j :=
  getD_set_ne _ _ _ _ (fun he => h he.symm)

theorem group_pop_eq (q : RequestQueue) (gid : Nat)
    (h : gid < q.allRequests.length) :
    (q.pop gid).group gid = heapPop (q.group gid) :=
  getD_set_eq _ _ _ h

theorem group_pop_ne (q : RequestQueue) (gid j : Nat)
    (h : j ≠ gid) : (q.pop gid).group j = q.group j :=
  getD_set_ne _ _ _ _ (fun he => h he.symm)

/-- States of the store reachable under the protocol of the spec: pushes
only when not full (with a request whose `groupId` lies in
`[0, numGroups)`, as every generated request does), pops only on a valid,
non-empty group.  `c` is the configured capacity (an `unsigned int`, hence
below `2^32`) and `n` the number of groups. -/
inductive Reachable (c n : Nat) : RequestQueue → Prop where
  | init : c < U32 → Reachable c n (RequestQueue.init c n)
  | push (q : RequestQueue) (r : Request) : Reachable c n q →
      q.isFull = false → 0 ≤ r.groupId → r.groupId < (n : Int) →
      Reachable c n (q.push r)
  | pop (q : RequestQueue) (gid : Nat) : Reachable c n q →
      gid < n → q.isEmpty gid = false → Reachable c n (q.pop gid)

/-- The inductive invariant of the store: the bookkeeping fields are the
constructor arguments, `currentSize` counts the stored requests exactly
and stays within the capacity, and every group vector is a max-heap. -/
def Inv (c n : Nat) (q : RequestQueue) : Prop :=
  q.capacity = c ∧ q.allRequests.length = n ∧ c < U32 ∧
  q.currentSize = sizesSum q ∧ q.currentSize ≤ c ∧
  ∀ gid, gid < n → IsHeap (q.group gid)

set_option maxRecDepth 4096 in
theorem reachable_inv (c n : Nat) (q : RequestQueue)
    (h : Reachable c n q) : Inv c n q := by
  induction h with
  | init hc =>
    refine ⟨rfl, by simp [RequestQueue.init], hc, ?_, by simp [RequestQueue.init], ?_⟩
    · simp [RequestQueue.init, sizesSum, List.map_replicate]
    · intro gid _
      rw [group_init]
      intro j hj hjl
      simp at hjl
  | push q r hq hful hge hlt ih =>
    obtain ⟨hcap, hlen, hU, hsum, hle, hheap⟩ := ih
    have hfull2 : q.currentSize < c := by
      have : q.currentSize ≠ q.capacity := by
        intro he
        rw [RequestQueue.isFull, he] at hful
        simp at hful
      omega
    have hgid : r.groupId.toNat < n := by omega
    have hgl : r.groupId.toNat < q.allRequests.length := by omega
    have hsz : (q.push r).currentSize = q.currentSize + 1 := by
      show (q.currentSize + 1) % U32 = q.currentSize + 1
      have : q.currentSize + 1 < U32 := by omega
      exact Nat.mod_eq_of_lt this
    have hsum2 : sizesSum (q.push r) = sizesSum q + 1 := by
      have hthis := sum_map_set q.allRequests List.length r.groupId.toNat
        (heapPush (q.group r.groupId.toNat) r) hgl
      rw [heapPush_length] at hthis
      have hg2 : (q.allRequests.getD r.groupId.toNat []).length
          = (q.group r.groupId.toNat).length := rfl
      rw [hg2] at hthis
      show ((q.allRequests.set r.groupId.toNat
        (heapPush (q.group r.groupId.toNat) r)).map List.length).sum
        = (q.allRequests.map List.length).sum + 1
      omega
    refine ⟨hcap, by simp [RequestQueue.push, hlen], hU, ?_, ?_, ?_⟩
    · rw [hsz, hsum2, hsum]
    · rw [hsz]; omega
    · intro gid hgidn
      by_cases hg : gid = r.groupId.toNat
      · rw [hg, group_push_eq q r hgl]
        exact isHeap_heapPush _ _ (hheap _ hgid)
      · rw [group_push_ne q r gid hg]
        exact hheap gid hgidn
  | pop q gid hq hgid hne ih =>
    obtain ⟨hcap, hlen, hU, hsum, hle, hheap⟩ := ih
    have hgl : gid < q.allRequests.length := by omega
    have hglen : 1 ≤ (q.group gid).length := by
      rw [RequestQueue.isEmpty] at hne
      cases hgg : q.group gid with
      | nil => rw [hgg] at hne; simp at hne
      | cons a t => simp
    have hsge : (q.group gid).length ≤ sizesSum q :=
      sum_map_ge_elem q.allRequests List.length gid hgl
    have hcs1 : 1 ≤ q.currentSize := by omega
    have hsz : (q.pop gid).currentSize = q.currentSize - 1 := by
      show decU32 q.currentSize = q.currentSize - 1
      unfold decU32
      rw [if_neg (by omega)]
    have hsum2 : sizesSum (q.pop gid) = sizesSum q - 1 := by
      have hthis := sum_map_set q.allRequests List.length gid
        (heapPop (q.group gid)) hgl
      rw [heapPop_length] at hthis
      have hg2 : (q.allRequests.getD gid []).length
          = (q.group gid).length := rfl
      rw [hg2] at hthis
      show ((q.allRequests.set gid
        (heapPop (q.group gid))).map List.length).sum
        = (q.allRequests.map List.length).sum - 1
      omega
    refine ⟨hcap, ?_, hU, ?_, ?_, ?_⟩
    · show (q.allRequests.set gid (heapPop (q.group gid))).length = n
      rw [List.length_set]; exact hlen
    · rw [hsz, hsum2, hsum]
    · rw [hsz]; omega
    · intro g hgn
      by_cases hg : g = gid
      · rw [hg, group_pop_eq q gid hgl]
        exact isHeap_heapPop _ (hheap _ hgid)
      · rw [group_pop_ne q gid g hg]
        exact hheap g hgn

/-- Heap vectors reachable from the empty vector by the push / pop bodies
of `RequestQueue` acting on a single group's vector, each pop performed
only on a non-empty vector. -/
inductive HeapReachable : List Request → Prop where
  | nil : HeapReachable []
  | push (l : List Request) (r : Request) :
      HeapReachable l → HeapReachable (heapPush l r)
  | pop (l : List Request) :
      HeapReachable l → l ≠ [] → HeapReachable (heapPop l)

theorem heapReachable_isHeap (l : List Request)
    (h : HeapReachable l) : IsHeap l := by
  induction h with
  | nil => intro j hj hjl; simp at hjl
  | push l r _ ih => exact isHeap_heapPush l r ih
  | pop l _ _ ih => exact isHeap_heapPop l ih

/-- Outcome of one worker-loop iteration after the wait returns
(`requestProcessing`, lines 148-156). -/
inductive WorkerOutcome where
  | exitLoop : WorkerOutcome
  | processed (request : Request) (q : RequestQueue) : WorkerOutcome
deriving Repr, DecidableEq

/-- Outcome of one generator-loop iteration after the wait returns
(`generateRequest`, lines 174-183). -/
inductive GenOutcome where
  | exitLoop : GenOutcome
  | produced (q : RequestQueue) : GenOutcome
deriving Repr, DecidableEq

/-- The worker's wait predicate (lines 149-151):
`!queue.isEmpty(device.groupId) || threadIsfFinished`. -/
def workerWaitPred (q : RequestQueue) (d : Device) (finished : Bool) : Bool :=
  !(q.isEmpty d.groupId) || finished

/-- The generator's wait predicate (lines 176-178):
`!queue.isFull() || threadIsfFinished`. -/
def generatorWaitPred (q : RequestQueue) (finished : Bool) : Bool :=
  !q.isFull || finished

/-- The body of `requestProcessing`'s loop once `cv.wait` has returned
(lines 153-156): the shutdown flag is checked first and breaks the loop;
otherwise the worker reads `top` and then `pop`s its group. -/
def requestProcessingBody (finished : Bool) (q : RequestQueue)
    (d : Device) : WorkerOutcome :=
  if finished then WorkerOutcome.exitLoop
  else WorkerOutcome.processed (q.top d.groupId) (q.pop d.groupId)

/-- The body of `generateRequest`'s loop once `cv.wait` has returned
(lines 180-183): the shutdown flag is checked first and breaks the loop;
otherwise the freshly generated request is pushed. -/
def generateRequestBody (finished : Bool) (q : RequestQueue)
    (r : Request) : GenOutcome :=
  if finished then GenOutcome.exitLoop
  else GenOutcome.produced (q.push r)

/-- The request constructed by the generator (lines 182-183):
`Request(getRandomNumber(0, numGroups - 1),
         getRandomNumber(MIN_REQUEST_TYPE, MAX_REQUEST_TYPE))`.
`rand` stands for `getRandomNumber`. -/
def generatedRequest (rand : Int → Int → Int) (numGroups : Int) : Request :=
  ⟨rand 0 (numGroups - 1), rand MIN_REQUEST_TYPE MAX_REQUEST_TYPE⟩

/-- The device id assigned in `main` (line 217): `i * numOfDevices + q`,
computed in `unsigned int` and therefore taken modulo `2^32` (the
subsequent store into the `int` field is a bijection modulo `2^32`, so
id equality is preserved by the `Nat` model). -/
def deviceId (numOfDevices i q : Nat) : Nat := (i * numOfDevices + q) % U32

/-- The devices created by `main`'s nested loops (lines 215-220):
`Device(i, i * numOfDevices + q)` for each group `i` and slot `q`. -/
def mkDevices (numOfGroups numOfDevices : Nat) : List Device :=
  (List.range numOfGroups).flatMap fun i =>
    (List.range numOfDevices).map fun j => ⟨i, deviceId numOfDevices i j⟩

theorem mem_mkDevices (numOfGroups numOfDevices : Nat) (d : Device) :
    d ∈ mkDevices numOfGroups numOfDevices ↔
      ∃ i, i < numOfGroups ∧ ∃ j, j < numOfDevices ∧
        d = ⟨i, deviceId numOfDevices i j⟩ := by
  simp only [mkDevices, List.mem_flatMap, List.mem_map, List.mem_range]
  constructor
  · rintro ⟨i, hi, j, hj, rfl⟩
    exact ⟨i, hi, j, hj, rfl⟩
  · rintro ⟨i, hi, j, hj, rfl⟩
    exact ⟨i, hi, j, hj, rfl⟩

/-- Fuel-indexed unfolding of `heapifyUp`: performs at most `fuel`
recursion steps of the C++ routine. -/
def heapifyUpFuel : Nat → List Request → Nat → List Request
  | 0, l, _ => l
  | fuel + 1, l, index =>
    if index = 0 then l
    else if (getR l ((index - 1) / 2)).type < (getR l index).type then
      heapifyUpFuel fuel (swapR l ((index - 1) / 2) index) ((index - 1) / 2)
    else l

theorem heapifyUpFuel_eq (fuel : Nat) :
    ∀ (l : List Request) (index : Nat), index < fuel →
      heapifyUpFuel fuel l index = heapifyUp l index := by
  induction fuel with
  | zero => intro l index h; omega
  | succ fuel ih =>
    intro l index h
    rw [heapifyUp, heapifyUpFuel]
    by_cases h0 : index = 0
    · rw [if_pos h0, dif_pos h0]
    · rw [if_neg h0, dif_neg h0]
      by_cases hlt : (getR l ((index - 1) / 2)).type < (getR l index).type
      · rw [if_pos hlt, if_pos hlt]
        exact ih _ _ (by omega)
      · rw [if_neg hlt, if_neg hlt]

theorem largeIdxU_eq (l : List Request) (i : Nat) (hi : i < 2147483647) :
    largeIdxU l i = largeIdx l i := by
  simp only [largeIdxU, largeIdx]
  rw [Nat.mod_eq_of_lt (by unfold U32; omega),
    Nat.mod_eq_of_lt (by unfold U32; omega)]

/-- Agreement and termination of the faithful sift-down on the wrap-free
domain: for vectors of at most `2^31 - 1` elements and start indices below
`2^31 - 1`, the `unsigned int` child arithmetic cannot wrap, so the
faithful recursion completes within `length - index` steps and computes
the idealized result. -/
theorem heapifyDownU_eq (fuel : Nat) :
    ∀ (l : List Request) (i : Nat), l.length ≤ 2147483647 →
      i < 2147483647 → l.length - i < fuel →
      heapifyDownU fuel l i = some (heapifyDown l i) := by
  induction fuel with
  | zero => intro l i h1 h2 h3; omega
  | succ fuel ih =>
    intro l i h1 h2 h3
    have hag : largeIdxU l i = largeIdx l i := largeIdxU_eq l i h2
    simp only [heapifyDownU]
    rw [heapifyDown, hag]
    by_cases heq : largeIdx l i = i
    · rw [if_pos heq, dif_pos heq]
    · rw [if_neg heq, dif_neg heq]
      have hb := largeIdx_bounds l i heq
      apply ih
      · rw [length_swapR]; exact h1
      · omega
      · rw [length_swapR]; omega

/-- The family of states the faithful sift-down cycles through: a
`2^31 + 1`-element vector of type-2 requests with a single type-1 request
at spine slot `2^k - 1`.  `wrapVec 0` is exactly what `pop` sifts from
index 0 after replacing the root of a `2^31 + 2`-element heap of type-2
requests whose last element has type 1. -/
def wrapVec (k : Nat) : List Request :=
  setR (List.replicate 2147483649 ⟨0, 2⟩) (2 ^ k - 1) ⟨0, 1⟩

theorem wrapVec_length (k : Nat) : (wrapVec k).length = 2147483649 := by
  rw [wrapVec, length_setR, List.length_replicate]

theorem getR_wrapVec (k x : Nat) (hk : k ≤ 31) :
    getR (wrapVec k) x =
      if x = 2 ^ k - 1 then ⟨0, 1⟩
      else if x < 2147483649 then ⟨0, 2⟩ else ⟨0, 0⟩ := by
  have hkN : 2 ^ k - 1 < 2147483649 := by
    have := Nat.pow_le_pow_right (show 1 ≤ 2 by omega) hk
    have h31 : (2 : Nat) ^ 31 = 2147483648 := by norm_num
    omega
  unfold wrapVec
  by_cases hx : x = 2 ^ k - 1
  · rw [hx, if_pos rfl, getR_setR_eq]
    rw [List.length_replicate]
    exact hkN
  · rw [if_neg hx, getR_setR_ne _ _ _ _ (fun he => hx he.symm),
      getR_replicate]

/-- One in-bounds step of the cycle: at spine slot `2^k - 1` (for
`k ≤ 30`) the sift picks the left child `2^(k+1) - 1` and the swap carries
the type-1 request one spine level down. -/
theorem wrapVec_step (k : Nat) (hk : k ≤ 30) :
    largeIdxU (wrapVec k) (2 ^ k - 1) = 2 ^ (k + 1) - 1 ∧
    swapR (wrapVec k) (2 ^ k - 1) (2 ^ (k + 1) - 1) = wrapVec (k + 1) := by
  have hp1 : (1 : Nat) ≤ 2 ^ k := Nat.one_le_two_pow
  have hup : (2 : Nat) ^ k ≤ 1073741824 := by
    have := Nat.pow_le_pow_right (show 1 ≤ 2 by omega) hk
    have h30 : (2 : Nat) ^ 30 = 1073741824 := by norm_num
    omega
  have hsucc : (2 : Nat) ^ (k + 1) = 2 * 2 ^ k := by
    rw [pow_succ]; omega
  have hmod1 : (2 * (2 ^ k - 1) + 1) % U32 = 2 ^ (k + 1) - 1 := by
    unfold U32; omega
  have hmod2 : (2 * (2 ^ k - 1) + 2) % U32 = 2 ^ (k + 1) := by
    unfold U32; omega
  have gv1 : getR (wrapVec k) (2 ^ k - 1) = ⟨0, 1⟩ := by
    rw [getR_wrapVec k _ (by omega), if_pos rfl]
  have gv2 : getR (wrapVec k) (2 ^ (k + 1) - 1) = ⟨0, 2⟩ := by
    rw [getR_wrapVec k _ (by omega), if_neg (by omega), if_pos (by omega)]
  have gv3 : getR (wrapVec k) (2 ^ (k + 1)) = ⟨0, 2⟩ := by
    rw [getR_wrapVec k _ (by omega), if_neg (by omega), if_pos (by omega)]
  have hc1 : 2 ^ (k + 1) - 1 < 2147483649 ∧
      (getR (wrapVec k) (2 ^ k - 1)).type <
        (getR (wrapVec k) (2 ^ (k + 1) - 1)).type := by
    refine ⟨by omega, ?_⟩
    rw [gv1, gv2]
    decide
  have hc2 : ¬(2 ^ (k + 1) < 2147483649 ∧
      (getR (wrapVec k) (2 ^ (k + 1) - 1)).type <
        (getR (wrapVec k) (2 ^ (k + 1))).type) := by
    intro hcon
    rw [gv2, gv3] at hcon
    exact absurd hcon.2 (by decide)
  constructor
  · simp only [largeIdxU]
    rw [hmod1, hmod2, wrapVec_length, if_pos hc1, if_neg hc2]
  · unfold swapR
    rw [gv1, gv2]
    unfold wrapVec
    rw [setR_setR, setR_replicate_self]

/-- The wrap step of the cycle: at spine slot `2^31 - 1` the left child
index `2^32 - 1` is out of bounds, but the right child index `2^32` wraps
to 0 in `unsigned int`, a phantom in-bounds child holding a type-2
request; the swap carries the type-1 request back to the root. -/
theorem wrapVec_step31 :
    largeIdxU (wrapVec 31) (2 ^ 31 - 1) = 0 ∧
    swapR (wrapVec 31) (2 ^ 31 - 1) 0 = wrapVec 0 := by
  have hmod1 : (2 * (2 ^ 31 - 1 : Nat) + 1) % U32 = 4294967295 := by
    unfold U32; norm_num
  have hmod2 : (2 * (2 ^ 31 - 1 : Nat) + 2) % U32 = 0 := by
    unfold U32; norm_num
  have gv1 : getR (wrapVec 31) (2 ^ 31 - 1) = ⟨0, 1⟩ := by
    rw [getR_wrapVec 31 _ (by omega), if_pos rfl]
  have gv0 : getR (wrapVec 31) 0 = ⟨0, 2⟩ := by
    rw [getR_wrapVec 31 _ (by omega), if_neg (by norm_num), if_pos (by norm_num)]
  have hc1 : ¬((4294967295 : Nat) < 2147483649 ∧
      (getR (wrapVec 31) (2 ^ 31 - 1)).type <
        (getR (wrapVec 31) 4294967295).type) := by
    intro hcon
    exact absurd hcon.1 (by norm_num)
  have hc2 : (0 : Nat) < 2147483649 ∧
      (getR (wrapVec 31) (2 ^ 31 - 1)).type <
        (getR (wrapVec 31) 0).type := by
    refine ⟨by norm_num, ?_⟩
    rw [gv1, gv0]
    decide
  constructor
  · simp only [largeIdxU]
    rw [hmod1, hmod2, wrapVec_length, if_neg hc1, if_pos hc2]
  · unfold swapR
    rw [gv0, gv1]
    unfold wrapVec
    rw [setR_setR, setR_replicate_self]
    norm_num

/-- The faithful sift-down cycles forever from `wrapVec k` at slot
`2^k - 1`: no step budget completes it. -/
theorem wrapVec_cycle : ∀ (fuel k : Nat), k ≤ 31 →
    heapifyDownU fuel (wrapVec k) (2 ^ k - 1) = none := by
  intro fuel
  induction fuel with
  | zero => intro k _; rfl
  | succ fuel ih =>
    intro k hk
    by_cases h31 : k = 31
    · subst h31
      obtain ⟨hL, hS⟩ := wrapVec_step31
      simp only [heapifyDownU]
      rw [hL, if_neg (by norm_num), hS]
      have h0 := ih 0 (by omega)
      rw [show (2 : Nat) ^ 0 - 1 = 0 from rfl] at h0
      exact h0
    · obtain ⟨hL, hS⟩ := wrapVec_step k (by omega)
      simp only [heapifyDownU]
      have hne : 2 ^ (k + 1) - 1 ≠ 2 ^ k - 1 := by
        have hp1 : (1 : Nat) ≤ 2 ^ k := Nat.one_le_two_pow
        have hsucc : (2 : Nat) ^ (k + 1) = 2 * 2 ^ k := by
          rw [pow_succ]; omega
        omega
      rw [hL, if_neg hne, hS]
      exact ih (k + 1) (by omega)

theorem heapifyUp_replicate (m i : Nat) (r : Request) (hi : i < m) :
    heapifyUp (List.replicate m r) i = List.replicate m r := by
  rw [heapifyUp]
  by_cases h0 : i = 0
  · rw [dif_pos h0]
  · have hcond : ¬((getR (List.replicate m r) ((i - 1) / 2)).type <
        (getR (List.replicate m r) i).type) := by
      rw [getR_replicate, getR_replicate, if_pos hi, if_pos (by omega)]
      exact lt_irrefl _
    rw [dif_neg h0, if_neg hcond]

theorem replicate_append_one (k : Nat) (r : Request) :
    List.replicate k r ++ [r] = List.replicate (k + 1) r := by
  induction k with
  | zero => rfl
  | succ k ih => simpa [List.replicate] using ih

theorem heapPush_rep (k : Nat) :
    heapPush (List.replicate k (⟨0, 2⟩ : Request)) ⟨0, 2⟩ =
      List.replicate (k + 1) (⟨0, 2⟩ : Request) := by
  unfold heapPush
  rw [replicate_append_one]
  simp only [List.length_replicate, Nat.add_sub_cancel]
  exact heapifyUp_replicate (k + 1) k _ (by omega)

theorem heapPush_rep_one (k : Nat) (hk : 1 ≤ k) :
    heapPush (List.replicate k (⟨0, 2⟩ : Request)) ⟨0, 1⟩ =
      List.replicate k (⟨0, 2⟩ : Request) ++ [⟨0, 1⟩] := by
  unfold heapPush
  simp only [List.length_append, List.length_replicate, List.length_cons,
    List.length_nil]
  rw [show k + (0 + 1) - 1 = k from by omega]
  rw [heapifyUp, dif_neg (by omega : ¬k = 0)]
  have hL : getR (List.replicate k (⟨0, 2⟩ : Request) ++ [⟨0, 1⟩]) k
      = ⟨0, 1⟩ := by
    have h := getR_append_len (List.replicate k (⟨0, 2⟩ : Request)) ⟨0, 1⟩
    rwa [List.length_replicate] at h
  have hP : getR (List.replicate k (⟨0, 2⟩ : Request) ++ [⟨0, 1⟩])
      ((k - 1) / 2) = ⟨0, 2⟩ := by
    rw [getR_append_lt _ _ _ (by rw [List.length_replicate]; omega),
      getR_replicate, if_pos (by omega)]
  have hcond : ¬((getR (List.replicate k (⟨0, 2⟩ : Request) ++ [⟨0, 1⟩])
      ((k - 1) / 2)).type <
      (getR (List.replicate k (⟨0, 2⟩ : Request) ++ [⟨0, 1⟩]) k).type) := by
    rw [hL, hP]
    decide
  rw [if_neg hcond]

/-- The `2^31 + 2`-element heap triggering the sift-down wrap: `2^31 + 1`
type-2 requests followed by one type-1 request (a valid max-heap, built by
pushes). -/
def wrapHeap : List Request :=
  List.replicate 2147483649 (⟨0, 2⟩ : Request) ++ [⟨0, 1⟩]

/-- Heap vectors of any number of type-2 requests are reachable by
pushes. -/
theorem heapReachable_rep (k : Nat) :
    HeapReachable (List.replicate k (⟨0, 2⟩ : Request)) := by
  induction k with
  | zero => exact HeapReachable.nil
  | succ k ih =>
    have h := HeapReachable.push _ (⟨0, 2⟩ : Request) ih
    rwa [heapPush_rep] at h

/-- The wrap-triggering heap is reachable by pushes on a single group's
vector. -/
theorem heapReachable_wrapHeap : HeapReachable wrapHeap := by
  have h := HeapReachable.push _ (⟨0, 1⟩ : Request) (heapReachable_rep 2147483649)
  rw [heapPush_rep_one _ (by norm_num)] at h
  exact h

theorem wrapHeap_length : wrapHeap.length = 2147483650 := by
  unfold wrapHeap
  rw [List.length_append, List.length_cons, List.length_nil,
    List.length_replicate]

/-- Replacing the root by the last element and shrinking — the part of
`pop` before the sift — turns the wrap-triggering heap into `wrapVec 0`. -/
theorem popBody_rep :
    (setR wrapHeap 0 (getR wrapHeap (wrapHeap.length - 1))).take
      (wrapHeap.length - 1) = wrapVec 0 := by
  rw [wrapHeap_length]
  rw [show (2147483650 : Nat) - 1 = 2147483649 from rfl]
  have hback : getR wrapHeap 2147483649 = ⟨0, 1⟩ := by
    unfold wrapHeap
    have h := getR_append_len (List.replicate 2147483649 (⟨0, 2⟩ : Request)) ⟨0, 1⟩
    rwa [List.length_replicate] at h
  rw [hback]
  unfold wrapHeap
  rw [setR_append_lt _ _ _ _ (by rw [List.length_replicate]; norm_num)]
  have htake := take_append_length
    (setR (List.replicate 2147483649 (⟨0, 2⟩ : Request)) 0 ⟨0, 1⟩) [⟨0, 1⟩]
  rw [length_setR, List.length_replicate] at htake
  rw [htake]
  unfold wrapVec
  rw [show (2 : Nat) ^ 0 - 1 = 0 from rfl]

/-- The reachable store exhibiting the sift-down wrap: capacity
`2^32 - 1` (the largest `unsigned int`), one group holding the
wrap-triggering heap. -/
def qBig : RequestQueue := ⟨4294967295, 2147483650, [wrapHeap]⟩

theorem reachable_rep : ∀ k, k ≤ 4294967295 →
    Reachable 4294967295 1
      ⟨4294967295, k, [List.replicate k (⟨0, 2⟩ : Request)]⟩ := by
  intro k
  induction k with
  | zero =>
    intro _
    exact Reachable.init (by decide)
  | succ k ih =>
    intro hk
    have hful : (⟨4294967295, k,
        [List.replicate k (⟨0, 2⟩ : Request)]⟩ : RequestQueue).isFull
        = false := by
      simp only [RequestQueue.isFull]
      simp only [beq_eq_false_iff_ne, ne_eq]
      omega
    have hstep := Reachable.push
      (⟨4294967295, k, [List.replicate k (⟨0, 2⟩ : Request)]⟩ : RequestQueue)
      ⟨0, 2⟩ (ih (by omega)) hful (by decide) (by decide)
    have heq : (⟨4294967295, k,
        [List.replicate k (⟨0, 2⟩ : Request)]⟩ : RequestQueue).push ⟨0, 2⟩
        = ⟨4294967295, k + 1, [List.replicate (k + 1) (⟨0, 2⟩ : Request)]⟩ := by
      unfold RequestQueue.push
      simp only [RequestQueue.mk.injEq]
      refine ⟨trivial, Nat.mod_eq_of_lt (by unfold U32; omega), ?_⟩
      show [List.replicate k (⟨0, 2⟩ : Request)].set 0
        (heapPush (List.replicate k (⟨0, 2⟩ : Request)) ⟨0, 2⟩)
        = [List.replicate (k + 1) (⟨0, 2⟩ : Request)]
      rw [heapPush_rep]
      rfl
    rw [heq] at hstep
    exact hstep

theorem qBig_reachable : Reachable 4294967295 1 qBig := by
  have hful : (⟨4294967295, 2147483649,
      [List.replicate 2147483649 (⟨0, 2⟩ : Request)]⟩ : RequestQueue).isFull
      = false := by decide
  have hstep := Reachable.push
    (⟨4294967295, 2147483649,
      [List.replicate 2147483649 (⟨0, 2⟩ : Request)]⟩ : RequestQueue)
    ⟨0, 1⟩ (reachable_rep 2147483649 (by norm_num)) hful (by decide) (by decide)
  have heq : (⟨4294967295, 2147483649,
      [List.replicate 2147483649 (⟨0, 2⟩ : Request)]⟩ : RequestQueue).push ⟨0, 1⟩
      = qBig := by
    unfold RequestQueue.push qBig
    simp only [RequestQueue.mk.injEq]
    refine ⟨trivial, by decide, ?_⟩
    show [List.replicate 2147483649 (⟨0, 2⟩ : Request)].set 0
      (heapPush (List.replicate 2147483649 (⟨0, 2⟩ : Request)) ⟨0, 1⟩)
      = [List.replicate 2147483649 (⟨0, 2⟩ : Request) ++ [⟨0, 1⟩]]
    rw [heapPush_rep_one _ (by norm_num)]
    rfl
  rw [heq] at hstep
  exact hstep

theorem qBig_group0 : qBig.group 0 = wrapHeap := rfl

/-- A concrete store used to instantiate the claim theorems:
capacity 10, two groups, one request of type 2 pushed to group 0. -/
def qW : RequestQueue := (RequestQueue.init 10 2).push ⟨0, 2⟩

theorem qW_reachable : Reachable 10 2 qW :=
  Reachable.push _ _ (Reachable.init (by decide)) (by decide) (by decide)
    (by decide)

theorem qW_group0 : qW.group 0 = [⟨0, 2⟩] := by
  simp [qW, RequestQueue.init, RequestQueue.push, RequestQueue.group,
    heapPush, heapifyUp, largeIdx, getR, setR, swapR, U32]

/-- Supporting result for C1's bug report: with the idealized (wrap-free)
sift arithmetic, in every reachable store state every valid group's vector
is a max-heap, so `top(groupId)` dominates every stored request.  By
`heapifyDownU_eq` this describes the program exactly for capacities at
most `2^31 - 1`. -/
theorem top_is_max_of_reachable (c n : Nat) (q : RequestQueue) (gid : Nat)
    (hr : Reachable c n q) (hgid : gid < n) :
    ∀ j, j < (q.group gid).length →
      (getR (q.group gid) j).type ≤ (q.top gid).type := by
  have hinv := reachable_inv c n q hr
  exact fun j hj => isHeap_root_max _ (hinv.2.2.2.2.2 gid hgid) j hj

/-- C1 (code bug): pop does not always return the group's maximum, because
it does not always return.  The store `qBig` — capacity `2^32 - 1`, one
group holding `2^31 + 1` type-2 requests and one type-1 request — is
reachable by guarded pushes and its group 0 is non-empty, yet the sift of
`pop(0)`, with the `unsigned int` child arithmetic of lines 129-130,
completes under no step budget: at node `2^31 - 1` the right-child index
wraps to the root and the recursion cycles forever. -/
theorem claimC1_pop_divergence :
    Reachable 4294967295 1 qBig ∧
    qBig.isEmpty 0 = false ∧
    ∀ fuel, heapifyDownU fuel
      ((setR (qBig.group 0) 0
          (getR (qBig.group 0) ((qBig.group 0).length - 1))).take
        ((qBig.group 0).length - 1)) 0 = none := by
  refine ⟨qBig_reachable, ?_, ?_⟩
  · unfold RequestQueue.isEmpty
    rw [qBig_group0]
    unfold wrapHeap
    cases h : List.replicate 2147483649 (⟨0, 2⟩ : Request) with
    | nil => rfl
    | cons a t => rfl
  · intro fuel
    rw [qBig_group0, popBody_rep]
    have h := wrapVec_cycle fuel 0 (by omega)
    rwa [show (2 : Nat) ^ 0 - 1 = 0 from rfl] at h

/-- Supporting result for C2's bug report: with the idealized (wrap-free)
sift arithmetic, any single group's heap vector produced by pushes and
pops (pops only on a non-empty vector) satisfies the max-heap property. -/
theorem heapReachable_heapProperty (l : List Request) (h : HeapReachable l) :
    HeapProperty l :=
  (isHeap_iff_heapProperty l).mp (heapReachable_isHeap l h)

/-- C2 (code bug): a push/pop sequence on one group's heap after which no
resulting vector exists at all, let alone one satisfying the max-heap
property: `wrapHeap` is reachable from the empty vector by `2^31 + 2`
pushes, is non-empty, and the pop that follows never finishes its sift —
the `unsigned int` right-child index wraps at node `2^31 - 1` to the root
(a phantom child) and the recursion cycles through the same 32 states
forever. -/
theorem claimC2_wrap_divergence :
    HeapReachable wrapHeap ∧ wrapHeap ≠ [] ∧
    ∀ fuel, heapPopU fuel wrapHeap = none := by
  refine ⟨heapReachable_wrapHeap, ?_, ?_⟩
  · unfold wrapHeap
    cases h : List.replicate 2147483649 (⟨0, 2⟩ : Request) with
    | nil => simp
    | cons a t => simp
  · intro fuel
    unfold heapPopU
    rw [popBody_rep]
    have h := wrapVec_cycle fuel 0 (by omega)
    rwa [show (2 : Nat) ^ 0 - 1 = 0 from rfl] at h

/-- C3: in every store state reachable by guarded pushes (not full) and
guarded pops (valid, non-empty group), `currentSize` equals the sum of the
per-group heap sizes and is bounded by `capacity` (being a `Nat`, it is
non-negative by construction). -/
theorem claimC3_size_invariant (c n : Nat) (q : RequestQueue)
    (hr : Reachable c n q) :
    q.currentSize = sizesSum q ∧ q.currentSize ≤ q.capacity := by
  have hinv := reachable_inv c n q hr
  refine ⟨hinv.2.2.2.1, ?_⟩
  rw [hinv.1]
  exact hinv.2.2.2.2.1

/-- Witness for C3 at a concrete reachable state. -/
theorem claimC3_size_invariant_witness :
    qW.currentSize = sizesSum qW ∧ qW.currentSize ≤ qW.capacity :=
  claimC3_size_invariant 10 2 qW qW_reachable

/-- C4: when the shutdown flag is observed true after the wait returns,
both the worker loop body and the generator loop body exit immediately with
no store mutation — for every queue state, hence in particular also when
the thread's data predicate (group non-empty, store not full) holds. -/
theorem claimC4_shutdown_exit (q : RequestQueue) (d : Device) (r : Request) :
    requestProcessingBody true q d = WorkerOutcome.exitLoop ∧
    generateRequestBody true q r = GenOutcome.exitLoop :=
  ⟨rfl, rfl⟩

/-- C5: with capacity 10 and two groups, pushing requests of types 1, 3, 2
into group 0 and then performing remove-max three times yields the types in
the order 3, 2, 1 (and leaves group 0 empty). -/
theorem claimC5_pop_order :
    ((((RequestQueue.init 10 2).push ⟨0, 1⟩).push ⟨0, 3⟩).push ⟨0, 2⟩
      |>.top 0).type = 3 ∧
    ((((RequestQueue.init 10 2).push ⟨0, 1⟩).push ⟨0, 3⟩).push ⟨0, 2⟩
      |>.pop 0 |>.top 0).type = 2 ∧
    ((((RequestQueue.init 10 2).push ⟨0, 1⟩).push ⟨0, 3⟩).push ⟨0, 2⟩
      |>.pop 0 |>.pop 0 |>.top 0).type = 1 ∧
    ((((RequestQueue.init 10 2).push ⟨0, 1⟩).push ⟨0, 3⟩).push ⟨0, 2⟩
      |>.pop 0 |>.pop 0 |>.pop 0 |>.isEmpty 0) = true := by
  simp [RequestQueue.init, RequestQueue.push, RequestQueue.pop,
    RequestQueue.top, RequestQueue.group, RequestQueue.isEmpty, heapPush,
    heapPop, heapifyUp, heapifyDown, largeIdx, getR, setR, swapR, U32,
    decU32]

/-- C6: popping a group whose heap holds exactly one element leaves that
group empty, and the sift-down run on the now-empty vector touches no
element (it is the identity on `[]` at every start index). -/
theorem claimC6_singleton_pop (q : RequestQueue) (gid : Nat)
    (h : (q.group gid).length = 1) :
    (q.pop gid).isEmpty gid = true ∧
    ∀ i, heapifyDown [] i = [] := by
  constructor
  · have hgl : gid < q.allRequests.length := by
      by_contra hc
      push_neg at hc
      have hnil : q.group gid = [] := by
        unfold RequestQueue.group
        simp [List.getD_eq_getElem?_getD,
          List.getElem?_eq_none (by omega : q.allRequests.length ≤ gid)]
      rw [hnil] at h
      simp at h
    rw [RequestQueue.isEmpty, group_pop_eq q gid hgl]
    have h0 : (heapPop (q.group gid)).length = 0 := by
      rw [heapPop_length, h]
    rw [List.length_eq_zero] at h0
    rw [h0]
    rfl
  · intro i
    rw [heapifyDown]
    rw [dif_pos (by simp [largeIdx] : largeIdx ([] : List Request) i = i)]

/-- Witness for C6 at a concrete singleton group. -/
theorem claimC6_singleton_pop_witness :
    ((qW.pop 0).isEmpty 0 = true ∧ ∀ i, heapifyDown [] i = []) :=
  claimC6_singleton_pop qW 0 (by simp [qW_group0])

/-- C7: assuming `getRandomNumber(start, end)` returns a value in
`[start, end]` and `numGroups ≥ 1`, every request the generator creates has
`type` in `[1, 3]` and `groupId` in `[0, numGroups)`. -/
theorem claimC7_request_ranges (rand : Int → Int → Int) (numGroups : Int)
    (hrand : ∀ s e, s ≤ e → s ≤ rand s e ∧ rand s e ≤ e)
    (hn : 1 ≤ numGroups) :
    1 ≤ (generatedRequest rand numGroups).type ∧
    (generatedRequest rand numGroups).type ≤ 3 ∧
    0 ≤ (generatedRequest rand numGroups).groupId ∧
    (generatedRequest rand numGroups).groupId < numGroups := by
  have h1 := hrand 0 (numGroups - 1) (by omega)
  have h2 := hrand MIN_REQUEST_TYPE MAX_REQUEST_TYPE (by decide)
  refine ⟨h2.1, h2.2, h1.1, ?_⟩
  show rand 0 (numGroups - 1) < numGroups
  have := h1.2
  unfold MIN_REQUEST_TYPE MAX_REQUEST_TYPE at h2
  omega

/-- Witness for C7 with the leftmost-value random function. -/
theorem claimC7_request_ranges_witness :
    1 ≤ (generatedRequest (fun s _ => s) 2).type ∧
    (generatedRequest (fun s _ => s) 2).type ≤ 3 ∧
    0 ≤ (generatedRequest (fun s _ => s) 2).groupId ∧
    (generatedRequest (fun s _ => s) 2).groupId < 2 :=
  claimC7_request_ranges (fun s _ => s) 2
    (fun s _ h => ⟨le_refl s, h⟩) (by decide)

/-- Counterexample to C8 as stated: with 3 groups of `2^31` devices each —
positive values inside the claim's "any positive" domain — the `unsigned
int` product `2 * 2^31` wraps to 0, so the created devices
`Device(0, 0*2^31+0)` and `Device(2, 2*2^31+0)` are distinct but share
id 0. -/
theorem claimC8_counterexample :
    0 < 3 ∧ 0 < 2147483648 ∧
    (⟨0, 0⟩ : Device) ∈ mkDevices 3 2147483648 ∧
    (⟨2, 0⟩ : Device) ∈ mkDevices 3 2147483648 ∧
    (⟨0, 0⟩ : Device).id = (⟨2, 0⟩ : Device).id ∧
    (⟨0, 0⟩ : Device) ≠ (⟨2, 0⟩ : Device) := by
  refine ⟨by decide, by decide, ?_, ?_, rfl, by decide⟩
  · refine (mem_mkDevices 3 2147483648 ⟨0, 0⟩).mpr ⟨0, by omega, 0, by omega, ?_⟩
    have h0 : deviceId 2147483648 0 0 = 0 := by decide
    rw [h0]
  · refine (mem_mkDevices 3 2147483648 ⟨2, 0⟩).mpr ⟨2, by omega, 0, by omega, ?_⟩
    have h0 : deviceId 2147483648 2 0 = 0 := by decide
    rw [h0]

/-- C8 (amended): the device ids assigned at startup are globally unique
provided `numOfGroups * numOfDevices ≤ 2^32`, so that the `unsigned int`
computation `i * numOfDevices + q` cannot wrap: then any two devices from
`main`'s creation loops with the same id are the same device. -/
theorem claimC8_device_ids_unique (numOfGroups numOfDevices : Nat)
    (_hG : 0 < numOfGroups) (hD : 0 < numOfDevices)
    (hDG : numOfGroups * numOfDevices ≤ U32) (d1 d2 : Device)
    (h1 : d1 ∈ mkDevices numOfGroups numOfDevices)
    (h2 : d2 ∈ mkDevices numOfGroups numOfDevices)
    (hid : d1.id = d2.id) : d1 = d2 := by
  rw [mem_mkDevices] at h1 h2
  obtain ⟨i1, hi1, j1, hj1, rfl⟩ := h1
  obtain ⟨i2, hi2, j2, hj2, rfl⟩ := h2
  have hlt : ∀ i j, i < numOfGroups → j < numOfDevices →
      i * numOfDevices + j < U32 := by
    intro i j hi hj
    have ha : (i + 1) * numOfDevices ≤ numOfGroups * numOfDevices :=
      Nat.mul_le_mul_right _ hi
    have hb : (i + 1) * numOfDevices = i * numOfDevices + numOfDevices := by
      ring
    unfold U32 at hDG ⊢
    omega
  have hdev : ∀ i j, i < numOfGroups → j < numOfDevices →
      deviceId numOfDevices i j = i * numOfDevices + j := by
    intro i j hi hj
    exact Nat.mod_eq_of_lt (hlt i j hi hj)
  have hid2 : deviceId numOfDevices i1 j1 = deviceId numOfDevices i2 j2 := hid
  rw [hdev i1 j1 hi1 hj1, hdev i2 j2 hi2 hj2] at hid2
  have key : ∀ i j, j < numOfDevices →
      (i * numOfDevices + j) % numOfDevices = j ∧
      (i * numOfDevices + j) / numOfDevices = i := by
    intro i j hj
    constructor
    · rw [Nat.mul_comm, Nat.mul_add_mod]
      exact Nat.mod_eq_of_lt hj
    · rw [Nat.mul_comm, Nat.mul_add_div hD, Nat.div_eq_of_lt hj]
      omega
  have hj12 : j1 = j2 := by
    have a1 := (key i1 j1 hj1).1
    have a2 := (key i2 j2 hj2).1
    rw [hid2, a2] at a1
    exact a1.symm
  have hi12 : i1 = i2 := by
    have b1 := (key i1 j1 hj1).2
    have b2 := (key i2 j2 hj2).2
    rw [hid2, b2] at b1
    exact b1.symm
  rw [hi12, hj12]

/-- Witness for the amended C8 on a concrete 2-group, 3-device
configuration. -/
theorem claimC8_device_ids_unique_witness :
    (⟨0, 1⟩ : Device) = ⟨0, 1⟩ :=
  claimC8_device_ids_unique 2 3 (by decide) (by decide) (by decide)
    ⟨0, 1⟩ ⟨0, 1⟩ (by decide) (by decide) rfl

/-- C9: `push` changes only the pushed request's group vector and
`currentSize`, `pop` changes only the popped group's vector and
`currentSize`; `capacity` and every other group's vector are unchanged. -/
theorem claimC9_frame (q : RequestQueue) (r : Request) (gid j : Nat) :
    (q.push r).capacity = q.capacity ∧
    (q.pop gid).capacity = q.capacity ∧
    (j ≠ r.groupId.toNat → (q.push r).group j = q.group j) ∧
    (j ≠ gid → (q.pop gid).group j = q.group j) :=
  ⟨rfl, rfl, group_push_ne q r j, group_pop_ne q gid j⟩

/-- Witness for C9 at a concrete state, request and untouched group 1. -/
theorem claimC9_frame_witness :
    (qW.push ⟨0, 5⟩).capacity = qW.capacity ∧
    (qW.pop 0).capacity = qW.capacity ∧
    (qW.push ⟨0, 5⟩).group 1 = qW.group 1 ∧
    (qW.pop 0).group 1 = qW.group 1 :=
  ⟨(claimC9_frame qW ⟨0, 5⟩ 0 1).1, (claimC9_frame qW ⟨0, 5⟩ 0 1).2.1,
   (claimC9_frame qW ⟨0, 5⟩ 0 1).2.2.1 (by decide),
   (claimC9_frame qW ⟨0, 5⟩ 0 1).2.2.2 (by decide)⟩

/-- Counterexample to C10 as stated: `heapifyDown` does not terminate on
every vector.  On the `2^31 + 1`-element vector holding a type-1 request
at the root and type-2 requests elsewhere — exactly what `pop` sifts after
a sequence of pushes, see `claimC1_pop_divergence` — the `unsigned int`
right-child index wraps at node `2^31 - 1` to the root, and the recursion
cycles through the same 32 states forever: no step budget completes it, so
in particular the index does not strictly increase at every call. -/
theorem claimC10_counterexample : ¬ SiftDownTerminates (wrapVec 0) 0 := by
  rintro ⟨fuel, hf⟩
  exact hf (wrapVec_cycle fuel 0 (by omega))

/-- C10 (amended): `heapifyUp` terminates for every vector and every
starting index within `index` recursion steps (the index strictly
decreases), and `heapifyDown` — whose child indices the C++ computes in
`unsigned int` — terminates within `length - index` steps and computes the
idealized sift result whenever the vector holds at most `2^31 - 1`
elements and the start index is below `2^31 - 1` (the wrap-free domain; in
particular at index 0, as the program calls it).  Outside that domain the
wrap can defeat the strictly-increasing measure
(`claimC10_counterexample`). -/
theorem claimC10_termination :
    (∀ (l : List Request) (i fuel : Nat), i < fuel →
      heapifyUpFuel fuel l i = heapifyUp l i) ∧
    (∀ (l : List Request) (i fuel : Nat), l.length ≤ 2147483647 →
      i < 2147483647 → l.length - i < fuel →
      heapifyDownU fuel l i = some (heapifyDown l i)) :=
  ⟨fun l i fuel h => heapifyUpFuel_eq fuel l i h,
   fun l i fuel h1 h2 h3 => heapifyDownU_eq fuel l i h1 h2 h3⟩

/-- Witness for the amended C10 on a concrete two-element vector. -/
theorem claimC10_termination_witness :
    heapifyUpFuel 2 [⟨0, 1⟩, ⟨0, 3⟩] 1 = heapifyUp [⟨0, 1⟩, ⟨0, 3⟩] 1 ∧
    heapifyDownU 3 [⟨0, 1⟩, ⟨0, 3⟩] 0 = some (heapifyDown [⟨0, 1⟩, ⟨0, 3⟩] 0) :=
  ⟨claimC10_termination.1 _ 1 2 (by decide),
   claimC10_termination.2 _ 0 3 (by decide) (by decide) (by decide)⟩

end QueuingSystem
